import Mathlib

/-!
Verification of the geometric and sequence post-processing algorithms of the
`ocr-rs` text-recognition engine (vendored under `src/vendor/ocr-rs`).

Embedding conventions:
* `f32` values are embedded as exact rationals (`Rat`); floating-point
  arithmetic is idealized as exact arithmetic.
* Integer-to-integer casts (`as i32`, `as u32`) wrap, and are modelled by
  `wrap32` / `toU32` below (reduction mod `2^32`).
* Float-to-integer casts (`as i32` / `as u32` on an `f32`) saturate at the
  bounds of the target type and truncate toward zero; they are modelled by
  `satI32` / `satU32`.
* Arithmetic on machine integers (`+`, `-`, `*`) is modelled exactly on
  `Int`/`Nat`; the executions in which such an operation overflows are the
  executions that panic in a checked build and are outside the model.
* `u32::saturating_sub` and guarded `u32` subtraction are `Nat` subtraction.
* Fallible operations return `Option`; `none` is the error case.
-/

namespace OcrRs

/-- Two to the 32nd, the modulus of `u32` arithmetic. -/
def u32Mod : Nat := 4294967296

/-- Two to the 31st. -/
def i32Lim : Int := 2147483648

/-- Cast of an integer to `i32` with wrapping (`as i32`). -/
def wrap32 (z : Int) : Int := (z + i32Lim) % (u32Mod : Int) - i32Lim

/-- Cast of an integer to `u32` with wrapping (`as u32`). -/
def toU32 (z : Int) : Nat := (z % (u32Mod : Int)).toNat

/-- Truncation of a rational toward zero (the rounding used by Rust's
float-to-integer casts). -/
def rtrunc (q : Rat) : Int := if 0 ≤ q then ⌊q⌋ else -⌊-q⌋

/-- Saturating cast of an `f32` to `i32` (`as i32` on a float). -/
def satI32 (q : Rat) : Int := max (-i32Lim) (min (i32Lim - 1) (rtrunc q))

/-- Saturating cast of an `f32` to `u32` (`as u32` on a float). -/
def satU32 (q : Rat) : Nat := (min ((u32Mod : Int) - 1) (rtrunc q)).toNat

/-- `imageproc::rect::Rect`: an axis-aligned rectangle with `i32` top-left
corner and `u32` size, built by `Rect::at(left, top).of_size(width, height)`. -/
structure Rect where
  left : Int
  top : Int
  width : Nat
  height : Nat
deriving DecidableEq

/-- `right` edge of a rectangle, `rect.left() + rect.width() as i32`: the
`u32 → i32` cast of the width wraps. -/
def Rect.right (r : Rect) : Int := r.left + wrap32 (r.width : Int)

/-- `bottom` edge of a rectangle, `rect.top() + rect.height() as i32`: the
`u32 → i32` cast of the height wraps. -/
def Rect.bottom (r : Rect) : Int := r.top + wrap32 (r.height : Int)

/-- `TextBox` (src/vendor/ocr-rs/src/postprocess.rs, lines 11-19): a detected
text bounding box with a confidence score and optional corner points. -/
structure TextBox where
  rect : Rect
  score : Rat
  points : Option (List (Rat × Rat)) := none
deriving DecidableEq

/-- `TextBox::new` (postprocess.rs, lines 23-29). -/
def TextBox.new (rect : Rect) (score : Rat) : TextBox :=
  { rect := rect, score := score, points := none }

/-- `TextBox::area` (postprocess.rs, lines 41-43): `width * height` on `u32`. -/
def TextBox.area (b : TextBox) : Nat := b.rect.width * b.rect.height

/-- `TextBox::expand` (postprocess.rs, lines 46-61): grow the box by `border`
on every side, clamp to `[0, max_width] × [0, max_height]`, and substitute a
size of 1 whenever the clamped interval is empty. -/
def TextBox.expand (b : TextBox) (border maxWidth maxHeight : Nat) : TextBox :=
  let x : Nat := (max (b.rect.left - wrap32 (border : Int)) 0).toNat
  let y : Nat := (max (b.rect.top - wrap32 (border : Int)) 0).toNat
  let right : Nat := min ((toU32 b.rect.left + b.rect.width) + border) maxWidth
  let bottom : Nat := min ((toU32 b.rect.top + b.rect.height) + border) maxHeight
  let width : Nat := if x < right then right - x else 1
  let height : Nat := if y < bottom then bottom - y else 1
  { rect := { left := wrap32 (x : Int), top := wrap32 (y : Int),
              width := width, height := height },
    score := b.score, points := b.points }

/-- C10: `TextBox::expand` is total and never yields a degenerate box: for
every box, border and clamp bounds the result has width ≥ 1 and height ≥ 1
(the guarded subtractions `right - x` / `bottom - y` are performed only when
they cannot underflow, and otherwise the fallback size 1 is used). -/
theorem textbox_expand_nondegenerate (b : TextBox) (border maxWidth maxHeight : Nat) :
    1 ≤ (b.expand border maxWidth maxHeight).rect.width ∧
    1 ≤ (b.expand border maxWidth maxHeight).rect.height := by
  unfold TextBox.expand
  constructor
  · dsimp only
    split
    · omega
    · omega
  · dsimp only
    split
    · omega
    · omega

/-- `compute_iou` (postprocess.rs, lines 339-359): intersection over union of
two axis-aligned rectangles, 0 if disjoint. -/
def computeIou (a b : Rect) : Rat :=
  let x1 := max a.left b.left
  let y1 := max a.top b.top
  let x2 := min a.right b.right
  let y2 := min a.bottom b.bottom
  if x2 ≤ x1 ∨ y2 ≤ y1 then 0
  else
    let intersection : Rat := ((x2 - x1 : Int) : Rat) * ((y2 - y1 : Int) : Rat)
    let areaA : Rat := (a.width : Rat) * (a.height : Rat)
    let areaB : Rat := (b.width : Rat) * (b.height : Rat)
    let union : Rat := areaA + areaB - intersection
    if union ≤ 0 then 0 else intersection / union

/-- `compute_containment_ratio` (postprocess.rs, lines 247-265): fraction of
`inner`'s area covered by its intersection with `outer`. -/
def computeContainmentRatio (inner outer : Rect) : Rat :=
  let x1 := max inner.left outer.left
  let y1 := max inner.top outer.top
  let x2 := min inner.right outer.right
  let y2 := min inner.bottom outer.bottom
  if x2 ≤ x1 ∨ y2 ≤ y1 then 0
  else
    let intersection : Rat := ((x2 - x1 : Int) : Rat) * ((y2 - y1 : Int) : Rat)
    let innerArea : Rat := (inner.width : Rat) * (inner.height : Rat)
    if innerArea ≤ 0 then 0 else intersection / innerArea

/-- The suppression test of the `nms` sweep (postprocess.rs, lines 311-331):
a candidate `cand` is suppressed by an already kept box `kept` when their IoU
exceeds the threshold, or more than 50% of `cand`'s area lies inside `kept`,
or more than 70% of `kept`'s area lies inside `cand`. -/
def suppresses (thr : Rat) (kept cand : TextBox) : Bool :=
  decide (thr < computeIou kept.rect cand.rect) ||
  decide ((1 : Rat)/2 < computeContainmentRatio cand.rect kept.rect) ||
  decide ((7 : Rat)/10 < computeContainmentRatio kept.rect cand.rect)

/-- The comparator of the `nms` sort (postprocess.rs, lines 281-293), as the
relation "`a` may come no later than `b`": score descending, ties broken by
area descending (Rust's `sort_by` is stable, as is `List.mergeSort`). -/
def nmsLe (a b : TextBox) : Bool :=
  decide (b.score < a.score) ||
  (decide (b.score = a.score) && decide (b.area ≤ a.area))

/-- The suppression sweep of `nms` (postprocess.rs, lines 295-333) over the
already sorted list: keep the first box, drop every later box it suppresses
(the `suppressed` flags), and continue with the remainder. -/
def nmsSweep (thr : Rat) : List TextBox → List TextBox
  | [] => []
  | b :: rest => b :: nmsSweep thr (rest.filter (fun c => !suppresses thr b c))
termination_by l => l.length
decreasing_by
  simpa using Nat.lt_succ_of_le (List.length_filter_le _ rest)

/-- `nms` (postprocess.rs, lines 275-336): sort by (score desc, area desc),
then sweep, suppressing by IoU and containment. -/
def nms (boxes : List TextBox) (iouThreshold : Rat) : List TextBox :=
  if boxes.isEmpty then [] else nmsSweep iouThreshold (boxes.mergeSort nmsLe)

theorem nmsLe_total (a b : TextBox) : nmsLe a b || nmsLe b a := by
  simp only [nmsLe, Bool.or_eq_true, Bool.and_eq_true, decide_eq_true_eq]
  rcases lt_trichotomy a.score b.score with h | h | h
  · exact Or.inr (Or.inl h)
  · rcases le_total b.area a.area with h2 | h2
    · exact Or.inl (Or.inr ⟨h.symm, h2⟩)
    · exact Or.inr (Or.inr ⟨h, h2⟩)
  · exact Or.inl (Or.inl h)

theorem nmsLe_trans (a b c : TextBox) : nmsLe a b → nmsLe b c → nmsLe a c := by
  simp only [nmsLe, Bool.or_eq_true, Bool.and_eq_true, decide_eq_true_eq]
  rintro (h1 | ⟨h1, h1a⟩) (h2 | ⟨h2, h2a⟩)
  · exact Or.inl (h2.trans h1)
  · exact Or.inl (h2.trans_lt h1)
  · exact Or.inl (h2.trans_eq h1)
  · exact Or.inr ⟨h2.trans h1, h2a.trans h1a⟩

theorem nmsSweep_sublist (thr : Rat) :
    ∀ l : List TextBox, List.Sublist (nmsSweep thr l) l
  | [] => by rw [nmsSweep]
  | b :: rest => by
    rw [nmsSweep]
    exact List.Sublist.cons₂ b
      ((nmsSweep_sublist thr _).trans (List.filter_sublist rest))
termination_by l => l.length
decreasing_by
  simpa using Nat.lt_succ_of_le (List.length_filter_le _ rest)

theorem nmsSweep_pairwise (thr : Rat) :
    ∀ l : List TextBox, (nmsSweep thr l).Pairwise (fun a b => suppresses thr a b = false)
  | [] => by rw [nmsSweep]; exact List.Pairwise.nil
  | b :: rest => by
    rw [nmsSweep]
    refine List.Pairwise.cons ?_ (nmsSweep_pairwise thr _)
    intro c hc
    have hmem := (nmsSweep_sublist thr _).mem hc
    have := List.mem_filter.mp hmem
    simpa using this.2
termination_by l => l.length
decreasing_by
  simpa using Nat.lt_succ_of_le (List.length_filter_le _ rest)

theorem nmsSweep_of_pairwise (thr : Rat) :
    ∀ l : List TextBox, l.Pairwise (fun a b => suppresses thr a b = false) →
      nmsSweep thr l = l
  | [], _ => by rw [nmsSweep]
  | b :: rest, h => by
    rw [nmsSweep]
    rcases List.pairwise_cons.mp h with ⟨hb, ht⟩
    have hf : rest.filter (fun c => !suppresses thr b c) = rest := by
      refine List.filter_eq_self.mpr ?_
      intro c hc
      simp [hb c hc]
    rw [hf, nmsSweep_of_pairwise thr rest ht]
termination_by l => l.length
decreasing_by
  simp

/-- C4: `nms` is idempotent — applying it to its own output returns that
output unchanged, for every box list and IoU threshold. -/
theorem nms_idempotent (boxes : List TextBox) (thr : Rat) :
    nms (nms boxes thr) thr = nms boxes thr := by
  unfold nms
  by_cases h : boxes.isEmpty
  · simp [h, nmsSweep, List.mergeSort]
  · rw [if_neg h]
    set k := nmsSweep thr (boxes.mergeSort nmsLe) with hk
    by_cases hke : k.isEmpty
    · rw [if_pos hke]
      exact (List.isEmpty_iff.mp hke).symm
    · rw [if_neg hke]
      have hsorted : k.Pairwise (fun a b => nmsLe a b) := by
        refine List.Pairwise.sublist (nmsSweep_sublist thr _) ?_
        exact List.sorted_mergeSort nmsLe_trans nmsLe_total boxes
      have hms : k.mergeSort nmsLe = k := List.mergeSort_of_sorted hsorted
      rw [hms]
      exact nmsSweep_of_pairwise thr k (nmsSweep_pairwise thr _)

/-- Specification-side formulation of the `nms` sweep: process the sorted
boxes left to right, and suppress a later box exactly when some earlier kept
box triggers the IoU/containment condition; every other box is kept, in
order. -/
def nmsKeepSpec (thr : Rat) (l : List TextBox) : List TextBox :=
  l.foldl
    (fun kept x =>
      if kept.any (fun k => suppresses thr k x) then kept else kept ++ [x]) []

theorem nmsKeepSpec_foldl (thr : Rat) :
    ∀ (l acc : List TextBox),
      l.foldl
        (fun kept x =>
          if kept.any (fun k => suppresses thr k x) then kept else kept ++ [x]) acc =
      acc ++ nmsSweep thr (l.filter (fun c => acc.all (fun k => !suppresses thr k c)))
  | [], acc => by simp [nmsSweep]
  | x :: l, acc => by
    by_cases hx : acc.any (fun k => suppresses thr k x)
    · have hpx : (acc.all (fun k => !suppresses thr k x)) = false := by
        rcases List.any_eq_true.mp hx with ⟨k, hk, hsup⟩
        refine List.all_eq_false.mpr ⟨k, hk, ?_⟩
        simp [hsup]
      rw [List.foldl_cons, if_pos hx, List.filter_cons, if_neg (by simp [hpx])]
      exact nmsKeepSpec_foldl thr l acc
    · have hpx : (acc.all (fun k => !suppresses thr k x)) = true := by
        refine List.all_eq_true.mpr ?_
        intro k hk
        by_contra hcon
        exact hx (List.any_eq_true.mpr ⟨k, hk, by simpa using hcon⟩)
      rw [List.foldl_cons, if_neg hx, List.filter_cons, if_pos hpx]
      rw [nmsKeepSpec_foldl thr l (acc ++ [x])]
      rw [nmsSweep]
      have hff : ∀ m : List TextBox,
          (m.filter (fun c => acc.all (fun k => !suppresses thr k c))).filter
              (fun c => !suppresses thr x c) =
          m.filter (fun c => (acc ++ [x]).all (fun k => !suppresses thr k c)) := by
        intro m
        rw [List.filter_filter]
        congr 1
        funext c
        simp [List.all_append, Bool.and_comm]
      rw [hff]
      simp

/-- C5: `nms` equals its specification — sweep the boxes sorted by score
descending with ties broken by area descending (the stable sort with
comparator `nmsLe`), suppressing a later box exactly when, against some
earlier kept box, the IoU exceeds the threshold, more than 50% of its area
is contained in the kept box, or more than 70% of the kept box's area is
contained in it; all other boxes are kept, in sweep order. -/
theorem nms_eq_keepSpec (boxes : List TextBox) (thr : Rat) :
    nms boxes thr = nmsKeepSpec thr (boxes.mergeSort nmsLe) := by
  unfold nms nmsKeepSpec
  by_cases h : boxes.isEmpty
  · have : boxes = [] := List.isEmpty_iff.mp h
    subst this
    simp [List.mergeSort]
  · simp only [h, if_false]
    rw [nmsKeepSpec_foldl thr _ []]
    simp

/-- `can_merge` (postprocess.rs, lines 416-445): two rectangles may merge when
they overlap vertically and their horizontal gap is at most `threshold`; the
`height as i32` / `width as i32` casts of the edge sums wrap. -/
def canMerge (a b : Rect) (threshold : Int) : Bool :=
  let aBottom := a.top + wrap32 (a.height : Int)
  let bBottom := b.top + wrap32 (b.height : Int)
  let aRight := a.left + wrap32 (a.width : Int)
  let bRight := b.left + wrap32 (b.width : Int)
  let horizontalDist : Int :=
    if a.left > bRight then a.left - bRight
    else if b.left > aRight then b.left - aRight
    else 0
  let verticalOverlap : Bool := !(decide (a.top > bBottom) || decide (b.top > aBottom))
  verticalOverlap && decide (horizontalDist ≤ threshold)

/-- `merge_rects` (postprocess.rs, lines 448-455): the bounding rectangle of
two rectangles; the final `as u32` casts of the sizes wrap. -/
def mergeRects (a b : Rect) : Rect :=
  let x1 := min a.left b.left
  let y1 := min a.top b.top
  let x2 := max a.right b.right
  let y2 := max a.bottom b.bottom
  { left := x1, top := y1, width := toU32 (x2 - x1), height := toU32 (y2 - y1) }

/-- State of one group being built by `merge_adjacent_boxes`: the current
union rectangle, accumulated score sum and count, the still-unused boxes, and
whether this pass merged anything. -/
structure MergeState where
  cur : Rect
  scoreSum : Rat
  count : Nat
  leftover : List TextBox
  found : Bool
deriving DecidableEq

/-- One pass of the inner `for j` loop of `merge_adjacent_boxes`
(postprocess.rs, lines 390-401): scan the unused boxes in order, folding every
box mergeable with the (growing) current rectangle into the group. -/
def mergePass (thr : Int) (cur : Rect) (s : Rat) (c : Nat) :
    List TextBox → MergeState
  | [] => { cur := cur, scoreSum := s, count := c, leftover := [], found := false }
  | b :: rest =>
    if canMerge cur b.rect thr then
      let st := mergePass thr (mergeRects cur b.rect) (s + b.score) (c + 1) rest
      { st with found := true }
    else
      let st := mergePass thr cur s c rest
      { st with leftover := b :: st.leftover }

/-- The inner `loop` of `merge_adjacent_boxes` (postprocess.rs, lines
387-407): repeat passes until a pass merges nothing. The loop terminates
because a successful pass consumes at least one box; `fuel` bounds the number
of passes (any fuel of at least `rest.length + 1` reaches the fixed point). -/
def growGroup (thr : Int) : Nat → Rect → Rat → Nat → List TextBox →
    Rect × Rat × Nat × List TextBox
  | 0, cur, s, c, rest => (cur, s, c, rest)
  | fuel + 1, cur, s, c, rest =>
    let st := mergePass thr cur s c rest
    if st.found then growGroup thr fuel st.cur st.scoreSum st.count st.leftover
    else (st.cur, st.scoreSum, st.count, st.leftover)

/-- The outer `for i` loop of `merge_adjacent_boxes` (postprocess.rs, lines
376-412): take the first unused box, grow its group to a fixed point, emit
`TextBox::new(current, group_score / count)`, and continue with the unused
remainder. `fuel` bounds the number of groups (at most one per input box). -/
def mergeAdjacentBoxesGo (thr : Int) : Nat → List TextBox → List TextBox
  | _, [] => []
  | 0, _ :: _ => []
  | fuel + 1, b :: rest =>
    let g := growGroup thr (rest.length + 1) b.rect b.score 1 rest
    TextBox.new g.1 (g.2.1 / (g.2.2.1 : Rat)) ::
      mergeAdjacentBoxesGo thr fuel g.2.2.2

/-- `merge_adjacent_boxes` (postprocess.rs, lines 368-413). -/
def mergeAdjacentBoxes (boxes : List TextBox) (distanceThreshold : Int) :
    List TextBox :=
  mergeAdjacentBoxesGo distanceThreshold boxes.length boxes

/-- The union rectangle of a nonempty group, folded from its first box in
merge order (`[]` never occurs; it is mapped to a degenerate rectangle). -/
def unionRectOf : List TextBox → Rect
  | [] => { left := 0, top := 0, width := 0, height := 0 }
  | b :: rest => rest.foldl (fun acc x => mergeRects acc x.rect) b.rect

theorem mergePass_spec (thr : Int) :
    ∀ (rest : List TextBox) (cur : Rect) (s : Rat) (c : Nat),
      ∃ merged : List TextBox,
        (mergePass thr cur s c rest).cur =
          merged.foldl (fun acc x => mergeRects acc x.rect) cur ∧
        (mergePass thr cur s c rest).scoreSum =
          s + (merged.map TextBox.score).sum ∧
        (mergePass thr cur s c rest).count = c + merged.length ∧
        (merged ++ (mergePass thr cur s c rest).leftover).Perm rest
  | [], cur, s, c => by
    refine ⟨[], ?_, ?_, ?_, ?_⟩ <;> simp [mergePass]
  | b :: rest, cur, s, c => by
    by_cases hm : canMerge cur b.rect thr
    · obtain ⟨merged, h1, h2, h3, h4⟩ :=
        mergePass_spec thr rest (mergeRects cur b.rect) (s + b.score) (c + 1)

      refine ⟨b :: merged, ?_, ?_, ?_, ?_⟩ <;>
        simp only [mergePass, if_pos hm, List.foldl_cons, List.map_cons,
          List.length_cons, List.sum_cons, List.cons_append]
      · exact h1
      · rw [h2]; ring
      · rw [h3]; omega
      · exact List.Perm.cons b h4
    · obtain ⟨merged, h1, h2, h3, h4⟩ := mergePass_spec thr rest cur s c
      refine ⟨merged, ?_, ?_, ?_, ?_⟩ <;>
        simp only [mergePass, if_neg hm]
      · exact h1
      · exact h2
      · exact h3
      · exact (List.perm_middle).trans (List.Perm.cons b h4)

theorem growGroup_succ (thr : Int) (fuel : Nat) (cur : Rect) (s : Rat) (c : Nat)
    (rest : List TextBox) :
    growGroup thr (fuel + 1) cur s c rest =
      if (mergePass thr cur s c rest).found then
        growGroup thr fuel (mergePass thr cur s c rest).cur
          (mergePass thr cur s c rest).scoreSum
          (mergePass thr cur s c rest).count
          (mergePass thr cur s c rest).leftover
      else
        ((mergePass thr cur s c rest).cur, (mergePass thr cur s c rest).scoreSum,
          (mergePass thr cur s c rest).count, (mergePass thr cur s c rest).leftover) :=
  rfl

theorem growGroup_spec (thr : Int) :
    ∀ (fuel : Nat) (cur : Rect) (s : Rat) (c : Nat) (rest : List TextBox),
      ∃ merged : List TextBox,
        (growGroup thr fuel cur s c rest).1 =
          merged.foldl (fun acc x => mergeRects acc x.rect) cur ∧
        (growGroup thr fuel cur s c rest).2.1 =
          s + (merged.map TextBox.score).sum ∧
        (growGroup thr fuel cur s c rest).2.2.1 = c + merged.length ∧
        (merged ++ (growGroup thr fuel cur s c rest).2.2.2).Perm rest
  | 0, cur, s, c, rest => by
    refine ⟨[], ?_, ?_, ?_, ?_⟩ <;> simp [growGroup]
  | fuel + 1, cur, s, c, rest => by
    obtain ⟨m1, h1, h2, h3, h4⟩ := mergePass_spec thr rest cur s c
    by_cases hf : (mergePass thr cur s c rest).found
    · obtain ⟨m2, g1, g2, g3, g4⟩ :=
        growGroup_spec thr fuel (mergePass thr cur s c rest).cur
          (mergePass thr cur s c rest).scoreSum
          (mergePass thr cur s c rest).count
          (mergePass thr cur s c rest).leftover
      rw [growGroup_succ, if_pos hf]
      refine ⟨m1 ++ m2, ?_, ?_, ?_, ?_⟩
      · rw [g1, h1, List.foldl_append]
      · rw [g2, h2, List.map_append, List.sum_append]; ring
      · rw [g3, h3, List.length_append]; omega
      · rw [List.append_assoc]
        exact (List.Perm.append_left m1 g4).trans h4
    · rw [growGroup_succ, if_neg hf]
      exact ⟨m1, h1, h2, h3, h4⟩

theorem mergeAdjacentBoxesGo_succ (thr : Int) (fuel : Nat) (b : TextBox)
    (rest : List TextBox) :
    mergeAdjacentBoxesGo thr (fuel + 1) (b :: rest) =
      TextBox.new (growGroup thr (rest.length + 1) b.rect b.score 1 rest).1
        ((growGroup thr (rest.length + 1) b.rect b.score 1 rest).2.1 /
          ((growGroup thr (rest.length + 1) b.rect b.score 1 rest).2.2.1 : Rat)) ::
      mergeAdjacentBoxesGo thr fuel
        (growGroup thr (rest.length + 1) b.rect b.score 1 rest).2.2.2 :=
  rfl

theorem mergeAdjacentBoxesGo_partition (thr : Int) :
    ∀ (fuel : Nat) (boxes : List TextBox), boxes.length ≤ fuel →
      ∃ groups : List (List TextBox),
        groups.flatten.Perm boxes ∧
        (∀ g ∈ groups, g ≠ []) ∧
        mergeAdjacentBoxesGo thr fuel boxes =
          groups.map (fun g =>
            TextBox.new (unionRectOf g)
              ((g.map TextBox.score).sum / (g.length : Rat)))
  | fuel, [], _ => by
    refine ⟨[], ?_, ?_, ?_⟩ <;> cases fuel <;> simp [mergeAdjacentBoxesGo]
  | fuel + 1, b :: rest, hfuel => by
    obtain ⟨merged, h1, h2, h3, h4⟩ :=
      growGroup_spec thr (rest.length + 1) b.rect b.score 1 rest
    obtain ⟨groups, g1, g2, g3⟩ :=
      mergeAdjacentBoxesGo_partition thr fuel
        (growGroup thr (rest.length + 1) b.rect b.score 1 rest).2.2.2
        (by
          have hlen := h4.length_eq
          rw [List.length_append] at hlen
          simp only [List.length_cons] at hfuel
          omega)
    refine ⟨(b :: merged) :: groups, ?_, ?_, ?_⟩
    · have hstep : ((b :: merged) :: groups).flatten =
          b :: (merged ++ groups.flatten) := by simp
      rw [hstep]
      exact List.Perm.cons b ((List.Perm.append_left merged g1).trans h4)
    · intro g hg
      rcases List.mem_cons.mp hg with hg | hg
      · subst hg; simp
      · exact g2 g hg
    · rw [mergeAdjacentBoxesGo_succ, g3, List.map_cons]
      have h3a : (growGroup thr (rest.length + 1) b.rect b.score 1 rest).2.2.1 =
          merged.length + 1 := by omega
      unfold TextBox.new unionRectOf
      rw [h1, h2, h3a]
      simp

/-- C7 (amended): `merge_adjacent_boxes` partitions its input into nonempty
groups (a permutation of the input), and each output box is the union
rectangle of its group with score the arithmetic mean of the group's input
scores. (The single greedy grouping pass is NOT a global fixed point: the
output can still contain mergeable pairs, see the counterexample.) -/
theorem merge_adjacent_boxes_partition_mean (boxes : List TextBox) (thr : Int) :
    ∃ groups : List (List TextBox),
      groups.flatten.Perm boxes ∧
      (∀ g ∈ groups, g ≠ []) ∧
      mergeAdjacentBoxes boxes thr =
        groups.map (fun g =>
          TextBox.new (unionRectOf g)
            ((g.map TextBox.score).sum / (g.length : Rat))) :=
  mergeAdjacentBoxesGo_partition thr boxes.length boxes (Nat.le_refl _)

/-- A concrete input refuting the fixed-point part of the merge claim. -/
def mergeCexInput : List TextBox :=
  [TextBox.new { left := 0, top := 0, width := 10, height := 10 } 1,
   TextBox.new { left := 10, top := 20, width := 10, height := 10 } 1,
   TextBox.new { left := 15, top := 8, width := 10, height := 10 } 1,
   TextBox.new { left := 16, top := 15, width := 2, height := 8 } 1]

/-- C7 (counterexample): on a concrete 4-box input with threshold 0, the
output of `merge_adjacent_boxes` still contains two boxes that vertically
overlap with horizontal gap ≤ threshold (`can_merge` holds for them), and
re-running `merge_adjacent_boxes` on its own output merges them — so the
output is not merge-free and the function is not idempotent. -/
theorem merge_adjacent_boxes_not_idempotent :
    (mergeAdjacentBoxes mergeCexInput 0).map TextBox.rect =
      [{ left := 0, top := 0, width := 10, height := 10 },
       { left := 10, top := 8, width := 15, height := 22 }] ∧
    canMerge { left := 0, top := 0, width := 10, height := 10 }
      { left := 10, top := 8, width := 15, height := 22 } 0 = true ∧
    mergeAdjacentBoxes (mergeAdjacentBoxes mergeCexInput 0) 0 ≠
      mergeAdjacentBoxes mergeCexInput 0 := by
  refine ⟨by decide, by decide, ?_⟩
  intro heq
  have hlen : (mergeAdjacentBoxes (mergeAdjacentBoxes mergeCexInput 0) 0).length =
      (mergeAdjacentBoxes mergeCexInput 0).length := by rw [heq]
  revert hlen
  decide

/-- A contour as produced by `imageproc::contours::find_contours`: a point
list plus the index of a parent contour when the contour is nested. -/
structure Contour where
  parent : Option Nat
  points : List (Int × Int)
deriving DecidableEq

/-- `get_contour_bounds` (postprocess.rs, lines 230-244): fold min/max over
the contour points, starting from `i32::MAX` / `i32::MIN`. Returns
`(min_x, min_y, max_x, max_y)`. -/
def getContourBounds (c : Contour) : Int × Int × Int × Int :=
  c.points.foldl
    (fun acc p =>
      (min acc.1 p.1, min acc.2.1 p.2, max acc.2.2.1 p.1, max acc.2.2.2 p.2))
    (2147483647, 2147483647, -2147483648, -2147483648)

/-- The per-contour body of the `for contour in contours` loop of
`extract_boxes_with_unclip` (postprocess.rs, lines 160-224): filter nested
contours and tiny point lists, clip the bounding box to the valid region,
filter by `min_area`, apply the unclip expansion, clamp, rescale to original
coordinates, and clamp again; `none` when the contour is filtered out. -/
def processContour (validWidth validHeight originalWidth originalHeight minArea : Nat)
    (unclipQ : Rat) (contour : Contour) : Option TextBox :=
  if contour.parent.isSome then none
  else if contour.points.length < 4 then none
  else
    let bounds := getContourBounds contour
    if bounds.1 ≥ (validWidth : Int) ∨ bounds.2.1 ≥ (validHeight : Int) then none
    else
      let minX := max bounds.1 0
      let minY := max bounds.2.1 0
      let maxX := min bounds.2.2.1 (validWidth : Int)
      let maxY := min bounds.2.2.2 (validHeight : Int)
      let boxWidth : Nat := toU32 (maxX - minX)
      let boxHeight : Nat := toU32 (maxY - minY)
      if boxWidth * boxHeight < minArea then none
      else
        let area : Rat := (boxWidth : Rat) * (boxHeight : Rat)
        let perimeter : Rat := 2 * ((boxWidth : Rat) + (boxHeight : Rat))
        let expandDist : Rat := max (area * unclipQ / perimeter) 1
        let expandedMinX : Int := satI32 (max ((minX : Rat) - expandDist) 0)
        let expandedMinY : Int := satI32 (max ((minY : Rat) - expandDist) 0)
        let expandedMaxX : Int := satI32 (min ((maxX : Rat) + expandDist) (validWidth : Rat))
        let expandedMaxY : Int := satI32 (min ((maxY : Rat) + expandDist) (validHeight : Rat))
        let expandedW : Nat := toU32 (expandedMaxX - expandedMinX)
        let expandedH : Nat := toU32 (expandedMaxY - expandedMinY)
        let scaleX : Rat := (originalWidth : Rat) / (validWidth : Rat)
        let scaleY : Rat := (originalHeight : Rat) / (validHeight : Rat)
        let scaledX : Int := satI32 ((expandedMinX : Rat) * scaleX)
        let scaledY : Int := satI32 ((expandedMinY : Rat) * scaleY)
        let scaledW : Nat := satU32 ((expandedW : Rat) * scaleX)
        let scaledH : Nat := satU32 ((expandedH : Rat) * scaleY)
        let finalX : Nat := (max scaledX 0).toNat
        let finalY : Nat := (max scaledY 0).toNat
        let finalW : Nat := min scaledW (originalWidth - finalX)
        let finalH : Nat := min scaledH (originalHeight - finalY)
        if 0 < finalW ∧ 0 < finalH then
          some (TextBox.new
            { left := wrap32 (finalX : Int), top := wrap32 (finalY : Int),
              width := finalW, height := finalH } 1)
        else none

/-- `extract_boxes_with_unclip` (postprocess.rs, lines 136-227), from the
contour list onward (the grayscale-image construction and
`find_contours` call are the external `imageproc` collaborator). -/
def extractBoxesWithUnclip (contours : List Contour)
    (validWidth validHeight originalWidth originalHeight minArea : Nat)
    (unclipQ : Rat) : List TextBox :=
  contours.filterMap
    (processContour validWidth validHeight originalWidth originalHeight minArea unclipQ)

/-- The box part of `DetModel::detect_and_crop` (det.rs, lines 218-240): each
detected box is expanded by the configured border, clamped to the image. -/
def detectAndCropBoxes (boxes : List TextBox) (boxBorder width height : Nat) :
    List TextBox :=
  boxes.map (fun b => b.expand boxBorder width height)

/-- The unclip expansion distance exactly as the specification words it:
`max(1.0, area * unclip_ratio / perimeter)` with `area = w*h` and
`perimeter = 2*(w+h)`. -/
def unclipDistance (w h : Nat) (unclipQ : Rat) : Rat :=
  max 1 ((w : Rat) * (h : Rat) * unclipQ / (2 * ((w : Rat) + (h : Rat))))

theorem wrap32_eq_self (z : Int) (h1 : -i32Lim ≤ z) (h2 : z < i32Lim) :
    wrap32 z = z := by
  unfold wrap32
  unfold i32Lim at *
  unfold u32Mod
  omega

theorem toU32_eq_toNat (z : Int) (h1 : 0 ≤ z) (h2 : z < (u32Mod : Int)) :
    toU32 z = z.toNat := by
  unfold toU32
  unfold u32Mod at *
  omega

theorem satI32_le (q : Rat) : satI32 q ≤ i32Lim - 1 := by
  unfold satI32
  refine max_le ?_ (min_le_left _ _)
  unfold i32Lim
  norm_num

theorem satI32_ge (q : Rat) : -i32Lim ≤ satI32 q := le_max_left _ _

/-- Bounds of one axis of the final clamped rectangle built at the end of the
contour loop: whenever the final size test passes on that axis, the
coordinate is nonnegative, fits in an `i32`, and coordinate + size stays
within the original image. -/
theorem finalSide_bounds (o : Nat) (s : Int) (w : Nat)
    (hs : s ≤ i32Lim - 1) (hw : 0 < min w (o - (max s 0).toNat)) :
    0 ≤ wrap32 (((max s 0).toNat : Nat) : Int) ∧
    wrap32 (((max s 0).toNat : Nat) : Int) ≤ i32Lim - 1 ∧
    wrap32 (((max s 0).toNat : Nat) : Int) + ((min w (o - (max s 0).toNat) : Nat) : Int)
      ≤ (o : Int) := by
  rcases max_choice s 0 with hmax | hmax <;>
    simp only [i32Lim] at hs ⊢ <;>
    rw [hmax] at hw ⊢ <;>
    [skip; skip]
  · have hs0 : 0 ≤ s := by
      by_contra hneg
      push_neg at hneg
      have := le_max_right s 0
      omega
    have he : wrap32 ((s.toNat : Nat) : Int) = (s.toNat : Int) := by
      refine wrap32_eq_self _ ?_ ?_
      · simp only [i32Lim]; omega
      · simp only [i32Lim]; omega
    rw [he]
    refine ⟨by omega, by omega, ?_⟩
    have h1 : min w (o - s.toNat) ≤ o - s.toNat := min_le_right _ _
    omega
  · have he : wrap32 (((0 : Int).toNat : Nat) : Int) = 0 := by
      exact Eq.trans (wrap32_eq_self _ (by decide) (by decide)) rfl
    rw [he]
    refine ⟨le_refl 0, by omega, ?_⟩
    have h1 : min w (o - (0 : Int).toNat) ≤ o - (0 : Int).toNat := min_le_right _ _
    omega

/-- Bounds of the final clamped rectangle built at the end of the contour
loop, both axes. -/
theorem finalRect_bounds (oW oH : Nat) (sx sy : Int) (sw sh : Nat)
    (hx : sx ≤ i32Lim - 1) (hy : sy ≤ i32Lim - 1)
    (hw : 0 < min sw (oW - (max sx 0).toNat))
    (hh : 0 < min sh (oH - (max sy 0).toNat)) :
    0 ≤ wrap32 (((max sx 0).toNat : Nat) : Int) ∧
    wrap32 (((max sx 0).toNat : Nat) : Int) ≤ i32Lim - 1 ∧
    0 ≤ wrap32 (((max sy 0).toNat : Nat) : Int) ∧
    wrap32 (((max sy 0).toNat : Nat) : Int) ≤ i32Lim - 1 ∧
    wrap32 (((max sx 0).toNat : Nat) : Int) + ((min sw (oW - (max sx 0).toNat) : Nat) : Int)
      ≤ (oW : Int) ∧
    wrap32 (((max sy 0).toNat : Nat) : Int) + ((min sh (oH - (max sy 0).toNat) : Nat) : Int)
      ≤ (oH : Int) := by
  obtain ⟨a1, a2, a3⟩ := finalSide_bounds oW sx sw hx hw
  obtain ⟨b1, b2, b3⟩ := finalSide_bounds oH sy sh hy hh
  exact ⟨a1, a2, b1, b2, a3, b3⟩

/-- Every box produced by the contour-extraction post-processing lies inside
the original image: nonnegative corner, positive size, and
`left + width ≤ original_width`, `top + height ≤ original_height` (the left
and top moreover fit in an `i32`, so no cast wraps). -/
theorem extract_boxes_in_bounds (contours : List Contour)
    (vW vH oW oH mA : Nat) (r : Rat) :
    ∀ b ∈ extractBoxesWithUnclip contours vW vH oW oH mA r,
      0 ≤ b.rect.left ∧ b.rect.left ≤ i32Lim - 1 ∧
      0 ≤ b.rect.top ∧ b.rect.top ≤ i32Lim - 1 ∧
      0 < b.rect.width ∧ 0 < b.rect.height ∧
      b.rect.left + (b.rect.width : Int) ≤ (oW : Int) ∧
      b.rect.top + (b.rect.height : Int) ≤ (oH : Int) := by
  intro b hb
  rcases List.mem_filterMap.mp hb with ⟨c, hc, hsome⟩
  simp only [processContour] at hsome
  split at hsome
  · exact Option.noConfusion hsome
  · split at hsome
    · exact Option.noConfusion hsome
    · split at hsome
      · exact Option.noConfusion hsome
      · split at hsome
        · exact Option.noConfusion hsome
        · split at hsome
          · rename_i hparent hlen hpad harea hpos
            obtain ⟨hw, hh⟩ := hpos
            cases Option.some.inj hsome
            obtain ⟨e1, e2, e3, e4, e5, e6⟩ :=
              finalRect_bounds oW oH _ _ _ _ (satI32_le _) (satI32_le _) hw hh
            exact ⟨e1, e2, e3, e4, hw, hh, e5, e6⟩
          · exact Option.noConfusion hsome

/-- In-bounds predicate of the detection contract: positive size and the box
contained in the `imgW × imgH` image. -/
def boxInBounds (b : TextBox) (imgW imgH : Nat) : Prop :=
  0 ≤ b.rect.left ∧ 0 ≤ b.rect.top ∧ 0 < b.rect.width ∧ 0 < b.rect.height ∧
  b.rect.left + (b.rect.width : Int) ≤ (imgW : Int) ∧
  b.rect.top + (b.rect.height : Int) ≤ (imgH : Int)

/-- One axis of `TextBox::expand`: for an in-bounds, `i32`-representable
input coordinate and a border below `2^31`, the expanded coordinate stays
nonnegative and coordinate + size stays within the clamp bound. -/
theorem expandSide_bounds (left : Int) (width border maxW : Nat)
    (hl0 : 0 ≤ left) (hl31 : left ≤ i32Lim - 1) (hw : 0 < width)
    (hlw : left + (width : Int) ≤ (maxW : Int)) (hb : (border : Int) ≤ i32Lim - 1) :
    0 ≤ wrap32 (((max (left - wrap32 (border : Int)) 0).toNat : Nat) : Int) ∧
    0 < (if (max (left - wrap32 (border : Int)) 0).toNat <
            min ((toU32 left + width) + border) maxW then
          min ((toU32 left + width) + border) maxW -
            (max (left - wrap32 (border : Int)) 0).toNat
        else 1) ∧
    wrap32 (((max (left - wrap32 (border : Int)) 0).toNat : Nat) : Int) +
      ((if (max (left - wrap32 (border : Int)) 0).toNat <
            min ((toU32 left + width) + border) maxW then
          min ((toU32 left + width) + border) maxW -
            (max (left - wrap32 (border : Int)) 0).toNat
        else 1 : Nat) : Int) ≤ (maxW : Int) := by
  have hwb : wrap32 (border : Int) = (border : Int) := by
    refine wrap32_eq_self _ ?_ ?_ <;> simp only [i32Lim] at * <;> omega
  rw [hwb]
  have hxle : (max (left - (border : Int)) 0).toNat ≤ left.toNat := by omega
  have hxw : wrap32 (((max (left - (border : Int)) 0).toNat : Nat) : Int) =
      ((max (left - (border : Int)) 0).toNat : Int) := by
    refine wrap32_eq_self _ ?_ ?_ <;> simp only [i32Lim] at * <;> omega
  rw [hxw]
  by_cases hcase : (max (left - (border : Int)) 0).toNat <
      min ((toU32 left + width) + border) maxW
  · rw [if_pos hcase]
    have hrle : min ((toU32 left + width) + border) maxW ≤ maxW := min_le_right _ _
    refine ⟨by omega, by omega, by omega⟩
  · rw [if_neg hcase]
    refine ⟨by omega, by omega, by omega⟩

/-- `TextBox::expand` keeps an in-bounds box with `i32`-representable corner
in bounds, for any border below `2^31`. -/
theorem expand_in_bounds (b : TextBox) (border maxW maxH : Nat)
    (hl0 : 0 ≤ b.rect.left) (hl31 : b.rect.left ≤ i32Lim - 1)
    (ht0 : 0 ≤ b.rect.top) (ht31 : b.rect.top ≤ i32Lim - 1)
    (hw : 0 < b.rect.width) (hh : 0 < b.rect.height)
    (hlw : b.rect.left + (b.rect.width : Int) ≤ (maxW : Int))
    (hth : b.rect.top + (b.rect.height : Int) ≤ (maxH : Int))
    (hb : (border : Int) ≤ i32Lim - 1) :
    boxInBounds (b.expand border maxW maxH) maxW maxH := by
  obtain ⟨a1, a2, a3⟩ :=
    expandSide_bounds b.rect.left b.rect.width border maxW hl0 hl31 hw hlw hb
  obtain ⟨b1, b2, b3⟩ :=
    expandSide_bounds b.rect.top b.rect.height border maxH ht0 ht31 hh hth hb
  exact ⟨a1, b1, a2, b2, a3, b3⟩

/-- C6 (amended): every box produced by detection post-processing
(`extract_boxes_with_unclip`) lies inside the original image with positive
size, and the border-expanded boxes of `detect_and_crop` do too, provided the
configured `box_border` is below `2^31` (for larger borders the `as i32` cast
wraps, see the counterexample). -/
theorem detection_boxes_in_bounds (contours : List Contour)
    (vW vH oW oH mA border : Nat) (r : Rat)
    (hborder : (border : Int) ≤ i32Lim - 1) :
    (∀ b ∈ extractBoxesWithUnclip contours vW vH oW oH mA r, boxInBounds b oW oH) ∧
    (∀ b ∈ detectAndCropBoxes (extractBoxesWithUnclip contours vW vH oW oH mA r)
        border oW oH, boxInBounds b oW oH) := by
  constructor
  · intro b hb
    obtain ⟨e1, _, e3, _, e5, e6, e7, e8⟩ :=
      extract_boxes_in_bounds contours vW vH oW oH mA r b hb
    exact ⟨e1, e3, e5, e6, e7, e8⟩
  · intro b hb
    rcases List.mem_map.mp hb with ⟨b0, hb0, rfl⟩
    obtain ⟨e1, e2, e3, e4, e5, e6, e7, e8⟩ :=
      extract_boxes_in_bounds contours vW vH oW oH mA r b0 hb0
    exact expand_in_bounds b0 border oW oH e1 e2 e3 e4 e5 e6 e7 e8 hborder

/-- A concrete outer contour: the square `(0,0) – (10,10)`. -/
def cexContour : Contour :=
  { parent := none, points := [(0, 0), (10, 0), (10, 10), (0, 10)] }

/-- The box that detection extracts from `cexContour` in a 100×100 image with
`min_area = 1` and `unclip_ratio = 2/5` (unclip distance 1). -/
def cexDetBox : TextBox :=
  TextBox.new { left := 0, top := 0, width := 11, height := 11 } 1

set_option maxHeartbeats 1000000 in
/-- C6 (counterexample): with a pathological `box_border` of `2^31 + 5`, the
`border as i32` cast in `TextBox::expand` wraps to a negative value and the
box expanded by `detect_and_crop` from an in-bounds detected box sticks far
outside the 100×100 image, refuting the claim for unrestricted borders. -/
theorem detection_boxes_in_bounds_cex :
    extractBoxesWithUnclip [cexContour] 100 100 100 100 1 (2/5) = [cexDetBox] ∧
    detectAndCropBoxes [cexDetBox] 2147483653 100 100 =
      [(cexDetBox.expand 2147483653 100 100)] ∧
    (cexDetBox.expand 2147483653 100 100).rect.left +
      (((cexDetBox.expand 2147483653 100 100).rect.width : Nat) : Int) > 100 := by
  refine ⟨?_, by decide, by decide⟩
  show List.filterMap _ [cexContour] = [cexDetBox]
  rw [List.filterMap_cons]
  have hpc : processContour 100 100 100 100 1 (2/5) cexContour = some cexDetBox := by
    have hbounds : getContourBounds cexContour = (0, 0, 10, 10) := by decide
    simp only [processContour, hbounds]
    rw [if_neg (by decide)]
    rw [if_neg (by decide)]
    rw [if_neg (by decide)]
    rw [if_neg (by decide)]
    have hB : toU32 (min (10 : Int) ((100 : Nat) : Int) - max (0 : Int) 0) = 10 := by
      decide
    rw [hB]
    norm_num [satI32, satU32, rtrunc, max_def, min_def, toU32, wrap32, u32Mod, i32Lim,
      TextBox.new, cexDetBox]
    decide
  rw [hpc]
  rfl

/-- Specification-side unclip step, following the specification's words: given
the clipped bounding box `(cminX, cminY) – (cmaxX, cmaxY)` of size `w × h` and
the expansion distance `d`, move all four sides outward by `d`, clamp to the
valid (unpadded) `vW × vH` region, then rescale to original coordinates with
the independent factors `oW/vW`, `oH/vH` and clamp to the original image. -/
def unclipSpecBox (vW vH oW oH : Nat) (cminX cminY cmaxX cmaxY : Int)
    (d : Rat) : Option TextBox :=
  let expandedMinX : Int := satI32 (max ((cminX : Rat) - d) 0)
  let expandedMinY : Int := satI32 (max ((cminY : Rat) - d) 0)
  let expandedMaxX : Int := satI32 (min ((cmaxX : Rat) + d) (vW : Rat))
  let expandedMaxY : Int := satI32 (min ((cmaxY : Rat) + d) (vH : Rat))
  let expandedW : Nat := toU32 (expandedMaxX - expandedMinX)
  let expandedH : Nat := toU32 (expandedMaxY - expandedMinY)
  let scaleX : Rat := (oW : Rat) / (vW : Rat)
  let scaleY : Rat := (oH : Rat) / (vH : Rat)
  let scaledX : Int := satI32 ((expandedMinX : Rat) * scaleX)
  let scaledY : Int := satI32 ((expandedMinY : Rat) * scaleY)
  let scaledW : Nat := satU32 ((expandedW : Rat) * scaleX)
  let scaledH : Nat := satU32 ((expandedH : Rat) * scaleY)
  let finalX : Nat := (max scaledX 0).toNat
  let finalY : Nat := (max scaledY 0).toNat
  let finalW : Nat := min scaledW (oW - finalX)
  let finalH : Nat := min scaledH (oH - finalY)
  if 0 < finalW ∧ 0 < finalH then
    some (TextBox.new
      { left := wrap32 (finalX : Int), top := wrap32 (finalY : Int),
        width := finalW, height := finalH } 1)
  else none

/-- C3: for every contour that survives the nesting/size/padding guards and
whose clipped bounding box has width `w > 0`, height `h > 0` and passes the
`min_area` filter, the contour loop computes the unclip expansion distance
`max(1.0, (w*h) * unclip_ratio / (2*(w+h)))` (`unclipDistance`), moves all
four sides outward by exactly that distance, clamps them to the valid region,
and rescales to original coordinates — i.e. it agrees with the
specification-side `unclipSpecBox` applied at that distance. -/
theorem unclip_expansion_spec (c : Contour) (vW vH oW oH mA : Nat) (r : Rat)
    (minX minY maxX maxY : Int) (w h : Nat)
    (hbounds : getContourBounds c = (minX, minY, maxX, maxY))
    (hparent : c.parent = none)
    (hpts : ¬ c.points.length < 4)
    (hpad : ¬ (minX ≥ (vW : Int) ∨ minY ≥ (vH : Int)))
    (hw : min maxX (vW : Int) - max minX 0 = (w : Int))
    (hh : min maxY (vH : Int) - max minY 0 = (h : Int))
    (hwpos : 0 < w) (hhpos : 0 < h)
    (hw32 : w < u32Mod) (hh32 : h < u32Mod)
    (harea : ¬ (w * h < mA)) :
    processContour vW vH oW oH mA r c =
      unclipSpecBox vW vH oW oH (max minX 0) (max minY 0)
        (min maxX (vW : Int)) (min maxY (vH : Int)) (unclipDistance w h r) := by
  have hp1 : c.parent.isSome = false := by rw [hparent]; rfl
  have hbw : toU32 (min maxX (vW : Int) - max minX 0) = w := by
    rw [hw]
    unfold toU32
    unfold u32Mod at *
    omega
  have hbh : toU32 (min maxY (vH : Int) - max minY 0) = h := by
    rw [hh]
    unfold toU32
    unfold u32Mod at *
    omega
  have hd : max ((w : Rat) * (h : Rat) * r / (2 * ((w : Rat) + (h : Rat)))) 1 =
      unclipDistance w h r := max_comm _ _
  simp only [processContour, unclipSpecBox, hbounds]
  rw [if_neg (by simp [hp1])]
  rw [if_neg hpts]
  rw [if_neg hpad]
  rw [hbw, hbh]
  rw [if_neg harea]
  rw [hd]

/-- `RecognitionResult` (rec.rs, lines 14-22): decoded text, aggregate
confidence, and per-character scores. -/
structure RecognitionResult where
  text : String
  confidence : Rat
  charScores : List (Char × Rat)
deriving DecidableEq

/-- `RecOptions` (rec.rs, lines 41-53). -/
structure RecOptions where
  targetHeight : Nat
  minScore : Rat
  punctMinScore : Rat
  batchSize : Nat
  enableBatch : Bool

/-- `PUNCTUATIONS` (rec.rs, lines 114-118): the fixed punctuation set. -/
def PUNCTUATIONS : List Char :=
  [',', '.', '!', '?', ';', ':', '\x22', '\x27', '(', ')', '[', ']', '\x7b', '\x7d',
   '-', '_', '/', '\\', '|', '@', '#', '$', '%', '&', '*', '+', '=', '~',
   '，', '。', '！', '？', '；', '：', '、', '「', '」', '『', '』', '（', '）',
   '【', '】', '《', '》', '—', '…', '·', '～']

/-- `RecModel::is_punctuation` (rec.rs, lines 433-435). -/
def isPunctuation (ch : Char) : Bool := PUNCTUATIONS.contains ch

/-- The per-time-step argmax of `decode_output` (rec.rs, lines 388-392).
Rust's `Iterator::max_by` keeps the accumulator only while it is strictly
greater, so ties resolve to the last (highest) class index. An empty row
(zero classes would panic in the source) is mapped to the blank class. -/
def argmaxPair (row : List Rat) : Nat × Rat :=
  match row with
  | [] => (0, 0)
  | v :: rest =>
    (rest.foldl
      (fun st x => (st.1 + 1, if st.2.2 > x then st.2 else (st.1 + 1, x)))
      (0, (0, v))).2

/-- The CTC decoding loop of `decode_output` (rec.rs, lines 379-417): walk the
time steps carrying the previous argmax (`prev_idx`, initially blank); emit
the mapped character when the argmax is non-blank, differs from the previous
argmax, is in charset range, and its probability passes the (punctuation-
aware) threshold. -/
def ctcDecode (charset : List Char) (minScore punctMinScore : Rat) :
    Nat → List (List Rat) → List (Char × Rat)
  | _, [] => []
  | prev, row :: rest =>
    let am := argmaxPair row
    let emitted : List (Char × Rat) :=
      if am.1 ≠ 0 ∧ am.1 ≠ prev then
        if am.1 < charset.length then
          let ch := charset.getD am.1 ' '
          let threshold := if isPunctuation ch then punctMinScore else minScore
          if am.2 ≥ threshold then [(ch, am.2)] else []
        else []
      else []
    emitted ++ ctcDecode charset minScore punctMinScore am.1 rest

/-- `RecModel::decode_output` (rec.rs, lines 361-430) on a
`[seq_len, num_classes]` output (row `t` = the class scores at time step
`t`): CTC-decode the character/score pairs, average the kept scores (0 when
none survive), and collect the text. -/
def decodeOutput (charset : List Char) (minScore punctMinScore : Rat)
    (rows : List (List Rat)) : RecognitionResult :=
  let charScores := ctcDecode charset minScore punctMinScore 0 rows
  let confidence : Rat :=
    if charScores.isEmpty then 0
    else (charScores.map Prod.snd).sum / (charScores.length : Rat)
  { text := String.mk (charScores.map Prod.fst), confidence := confidence,
    charScores := charScores }

/-- Specification-side CTC emission with an explicit initial previous index:
a character is emitted at time step `t` exactly when the argmax at `t` is
non-zero and differs from the argmax at `t-1` (`prev` at `t = 0`), and its
score meets the punctuation-aware threshold. -/
def ctcSpecFrom (charset : List Char) (minScore punctMinScore : Rat)
    (prev : Nat) (rows : List (List Rat)) : List (Char × Rat) :=
  (List.range rows.length).filterMap (fun t =>
    let am := argmaxPair (rows.getD t [])
    let prevIdx := if t = 0 then prev else (argmaxPair (rows.getD (t - 1) [])).1
    let ch := charset.getD am.1 ' '
    let threshold := if isPunctuation ch then punctMinScore else minScore
    if am.1 ≠ 0 ∧ am.1 ≠ prevIdx ∧ threshold ≤ am.2 then some (ch, am.2) else none)

/-- Specification-side CTC emission of the claim: previous index at `t = 0`
is the blank class. -/
def ctcSpecEmitted (charset : List Char) (minScore punctMinScore : Rat)
    (rows : List (List Rat)) : List (Char × Rat) :=
  ctcSpecFrom charset minScore punctMinScore 0 rows

theorem argmaxPair_fst_lt (row : List Rat) (hne : row ≠ []) :
    (argmaxPair row).1 < row.length := by
  match row, hne with
  | v :: rest, _ =>
    simp only [argmaxPair, List.length_cons]
    have key : ∀ (l : List Rat) (k : Nat) (best : Nat × Rat), best.1 ≤ k →
        ((l.foldl
          (fun st x => (st.1 + 1, if st.2.2 > x then st.2 else (st.1 + 1, x)))
          (k, best)).2).1 ≤ k + l.length := by
      intro l
      induction l with
      | nil =>
        intro k best h
        simpa using h
      | cons x xs ih =>
        intro k best h
        simp only [List.foldl_cons, List.length_cons]
        by_cases hc : best.2 > x
        · have hr := ih (k + 1) best (by omega)
          simp only [if_pos hc]
          omega
        · have hr := ih (k + 1) (k + 1, x) (by omega)
          simp only [if_neg hc]
          omega
    have hk := key rest 0 (0, v) (by omega)
    omega

theorem ctcSpecFrom_cons (charset : List Char) (minS punctS : Rat) (prev : Nat)
    (row : List Rat) (rest : List (List Rat)) :
    ctcSpecFrom charset minS punctS prev (row :: rest) =
      (if (argmaxPair row).1 ≠ 0 ∧ (argmaxPair row).1 ≠ prev ∧
          (if isPunctuation (charset.getD (argmaxPair row).1 ' ') then punctS else minS) ≤
            (argmaxPair row).2
       then [(charset.getD (argmaxPair row).1 ' ', (argmaxPair row).2)] else []) ++
      ctcSpecFrom charset minS punctS (argmaxPair row).1 rest := by
  unfold ctcSpecFrom
  rw [List.length_cons, List.range_succ_eq_map]
  have hf0 : (let am := argmaxPair ((row :: rest).getD 0 [])
      let prevIdx := if 0 = 0 then prev else (argmaxPair ((row :: rest).getD (0 - 1) [])).1
      let ch := charset.getD am.1 ' '
      let threshold := if isPunctuation ch then punctS else minS
      if am.1 ≠ 0 ∧ am.1 ≠ prevIdx ∧ threshold ≤ am.2 then some (ch, am.2) else none) =
      (if (argmaxPair row).1 ≠ 0 ∧ (argmaxPair row).1 ≠ prev ∧
          (if isPunctuation (charset.getD (argmaxPair row).1 ' ') then punctS else minS) ≤
            (argmaxPair row).2
       then some (charset.getD (argmaxPair row).1 ' ', (argmaxPair row).2) else none) := rfl
  have htail : List.filterMap
      ((fun t =>
        let am := argmaxPair ((row :: rest).getD t [])
        let prevIdx := if t = 0 then prev else (argmaxPair ((row :: rest).getD (t - 1) [])).1
        let ch := charset.getD am.1 ' '
        let threshold := if isPunctuation ch then punctS else minS
        if am.1 ≠ 0 ∧ am.1 ≠ prevIdx ∧ threshold ≤ am.2 then some (ch, am.2) else none) ∘
        Nat.succ) (List.range rest.length) =
      ctcSpecFrom charset minS punctS (argmaxPair row).1 rest := by
    unfold ctcSpecFrom
    congr 1
    funext t
    cases t with
    | zero => simp
    | succ s => simp
  by_cases hc : (argmaxPair row).1 ≠ 0 ∧ (argmaxPair row).1 ≠ prev ∧
      (if isPunctuation (charset.getD (argmaxPair row).1 ' ') then punctS else minS) ≤
        (argmaxPair row).2
  · rw [List.filterMap_cons, List.filterMap_map, htail, hf0, if_pos hc, if_pos hc]
    rfl
  · rw [List.filterMap_cons, List.filterMap_map, htail, hf0, if_neg hc, if_neg hc]
    rfl

theorem ctcDecode_eq_specFrom (charset : List Char) (minS punctS : Rat) :
    ∀ (rows : List (List Rat)) (prev : Nat),
      (∀ row ∈ rows, row.length ≤ charset.length) →
      ctcDecode charset minS punctS prev rows = ctcSpecFrom charset minS punctS prev rows
  | [], prev, _ => by
    rw [ctcDecode]
    rfl
  | row :: rest, prev, hfit => by
    rw [ctcSpecFrom_cons]
    simp only [ctcDecode]
    rw [ctcDecode_eq_specFrom charset minS punctS rest (argmaxPair row).1
      (fun r hr => hfit r (List.mem_cons_of_mem _ hr))]
    congr 1
    by_cases h1 : (argmaxPair row).1 ≠ 0 ∧ (argmaxPair row).1 ≠ prev
    · have hne : row ≠ [] := by
        intro hrow
        apply h1.1
        rw [hrow]
        rfl
      have hlt : (argmaxPair row).1 < charset.length :=
        lt_of_lt_of_le (argmaxPair_fst_lt row hne) (hfit row (List.mem_cons_self row rest))
      rw [if_pos h1, if_pos hlt]
      by_cases h2 : (argmaxPair row).2 ≥
          (if isPunctuation (charset.getD (argmaxPair row).1 ' ') then punctS else minS)
      · rw [if_pos h2, if_pos ⟨h1.1, h1.2, h2⟩]
      · rw [if_neg h2, if_neg (fun hh => h2 hh.2.2)]
    · rw [if_neg h1, if_neg (fun hh => h1 ⟨hh.1, hh.2.1⟩)]

/-- C2: greedy CTC decoding characterized — provided every row fits the
charset (`num_classes ≤ charset length`), a character is emitted at time step
`t` exactly when the argmax class at `t` is non-zero and differs from the
argmax at `t-1` (blank at `t = 0`), and it is kept exactly when its
max-probability score meets `punct_min_score` for punctuation characters and
`min_score` otherwise; the aggregate confidence is the arithmetic mean of the
kept scores, and 0 when none are kept. -/
theorem ctc_decode_spec (charset : List Char) (minS punctS : Rat)
    (rows : List (List Rat))
    (hfit : ∀ row ∈ rows, row.length ≤ charset.length) :
    (decodeOutput charset minS punctS rows).charScores =
      ctcSpecEmitted charset minS punctS rows ∧
    (decodeOutput charset minS punctS rows).confidence =
      (if ctcSpecEmitted charset minS punctS rows = [] then 0
       else ((ctcSpecEmitted charset minS punctS rows).map Prod.snd).sum /
         ((ctcSpecEmitted charset minS punctS rows).length : Rat)) := by
  have h := ctcDecode_eq_specFrom charset minS punctS rows 0 hfit
  unfold ctcSpecEmitted
  constructor
  · simpa [decodeOutput] using h
  · simp only [decodeOutput, h, List.isEmpty_iff]

/-- `RecModel::parse_charset` (rec.rs, lines 184-205), from the decoded
character sequence (the `str::from_utf8` UTF-8 decoding is upstream): the
space blank token first, every character that is not a line terminator, the
space padding token last; an error when fewer than 3 entries result. -/
def parseCharset (content : List Char) : Option (List Char) :=
  let charset := (' ' :: content.filter (fun ch => ch != '\n' && ch != '\r')) ++ [' ']
  if charset.length < 3 then none else some charset

/-- A single time step whose argmax is the trailing pad index of the charset
is decoded as the charset's last character (a space for a parsed charset),
provided its score passes `min_score`. -/
theorem ctcDecode_pad_single (cs : List Char) (minS punctS v : Rat) (row : List Rat)
    (ham : argmaxPair row = (cs.length - 1, v))
    (hlen3 : 3 ≤ cs.length)
    (hchar : cs.getD (cs.length - 1) ' ' = ' ')
    (hv : minS ≤ v) :
    ctcDecode cs minS punctS 0 [row] = [(' ', v)] := by
  simp only [ctcDecode, ham]
  rw [hchar]
  have ht : (if isPunctuation ' ' = true then punctS else minS) = minS :=
    if_neg (by decide)
  rw [ht]
  rw [if_pos ⟨by omega, by omega⟩, if_pos (by omega : cs.length - 1 < cs.length),
    if_pos hv]
  rfl

/-- C9: for every character sequence holding at least one character other
than a line terminator, `parse_charset` succeeds with a charset of length
(number of non-newline characters) + 2 whose synthesized blank token (index
0) and trailing pad token (last index) are both the space character; a
decode time step whose argmax is the trailing pad index therefore passes the
range guard and emits a space (subject to `min_score`) rather than being
rejected as out of range. -/
theorem parse_charset_blank_pad (content : List Char)
    (hsome : ∃ ch ∈ content, ch ≠ '\n' ∧ ch ≠ '\r') :
    ∃ cs, parseCharset content = some cs ∧
      cs.length = (content.filter (fun ch => ch != '\n' && ch != '\r')).length + 2 ∧
      cs.getD 0 'x' = ' ' ∧
      cs.getD (cs.length - 1) 'x' = ' ' ∧
      (∀ (row : List Rat) (v minS punctS : Rat),
        argmaxPair row = (cs.length - 1, v) → minS ≤ v →
        (decodeOutput cs minS punctS [row]).charScores = [(' ', v)] ∧
        (decodeOutput cs minS punctS [row]).text = " " ∧
        (decodeOutput cs minS punctS [row]).confidence = v) := by
  have hflen : 0 < (content.filter (fun ch => ch != '\n' && ch != '\r')).length := by
    rcases hsome with ⟨ch, hmem, h1, h2⟩
    have hm : ch ∈ content.filter (fun ch => ch != '\n' && ch != '\r') := by
      refine List.mem_filter.mpr ⟨hmem, ?_⟩
      simp [h1, h2]
    exact List.length_pos.mpr (List.ne_nil_of_mem hm)
  set f := content.filter (fun ch => ch != '\n' && ch != '\r') with hf
  have hcs : parseCharset content = some (' ' :: (f ++ [' '])) := by
    unfold parseCharset
    rw [← hf]
    rw [if_neg (by simp; omega)]
    rfl
  have hlen : (' ' :: (f ++ [' '])).length = f.length + 2 := by simp
  have hidx : (' ' :: (f ++ [' '])).length - 1 = f.length + 1 := by simp
  have hpadchar : ∀ d : Char,
      (' ' :: (f ++ [' '])).getD ((' ' :: (f ++ [' '])).length - 1) d = ' ' := by
    intro d
    rw [hidx, List.getD_cons_succ, List.getD_append_right]
    · simp
    · exact Nat.le_refl _
  refine ⟨' ' :: (f ++ [' ']), hcs, hlen, by simp, hpadchar 'x', ?_⟩
  intro row v minS punctS ham hv
  have hdec : ctcDecode (' ' :: (f ++ [' '])) minS punctS 0 [row] = [(' ', v)] := by
    refine ctcDecode_pad_single _ _ _ _ _ ham ?_ (hpadchar ' ') hv
    rw [hlen]
    omega
  refine ⟨?_, ?_, ?_⟩
  · simp [decodeOutput, hdec]
  · simp only [decodeOutput, hdec, List.map_cons, List.map_nil]
  · simp [decodeOutput, hdec]

/-- The inference capability a `RecModel` owns (§6 of the design): a single
preprocessed line image run through the network (`preprocess_for_rec` +
`run_dynamic` folded together), and a padded batch run returning one
`[seq_len, num_classes]` row per image (`preprocess_batch_for_rec` +
`run_dynamic` + the per-sample slicing of rec.rs, lines 349-355). -/
structure RecEngine (Img : Type) where
  runSingle : Img → List (List Rat)
  runBatch : List Img → List (List (List Rat))

/-- `RecModel::recognize` (rec.rs, lines 235-244): run one image and decode. -/
def recognize {Img : Type} (m : RecEngine Img) (opts : RecOptions)
    (charset : List Char) (img : Img) : RecognitionResult :=
  decodeOutput charset opts.minScore opts.punctMinScore (m.runSingle img)

/-- `slice::chunks` with explicit fuel (one unit per chunk; `length` fuel
suffices for any positive chunk size). -/
def chunksGo {α : Type} : Nat → Nat → List α → List (List α)
  | _, _, [] => []
  | 0, _, a :: t => [a :: t]
  | f + 1, n, a :: t =>
    if n = 0 then [a :: t]
    else (a :: t).take n :: chunksGo f n ((a :: t).drop n)

/-- `images.chunks(batch_size)` (rec.rs, line 272). -/
def chunksOf {α : Type} (n : Nat) (l : List α) : List (List α) :=
  chunksGo l.length n l

/-- `RecModel::recognize_batch_internal` (rec.rs, lines 314-358): a single
image is recognized individually; otherwise one padded batch inference and a
row-by-row decode. -/
def recognizeBatchInternal {Img : Type} (m : RecEngine Img) (opts : RecOptions)
    (charset : List Char) (imgs : List Img) : List RecognitionResult :=
  match imgs with
  | [] => []
  | [img] => [recognize m opts charset img]
  | _ => (m.runBatch imgs).map (decodeOutput charset opts.minScore opts.punctMinScore)

/-- `RecModel::recognize_batch` (rec.rs, lines 259-278): up to 2 images (or
batching disabled) sequentially, otherwise chunked by `batch_size` with one
batched inference per chunk. -/
def recognizeBatch {Img : Type} (m : RecEngine Img) (opts : RecOptions)
    (charset : List Char) (imgs : List Img) : List RecognitionResult :=
  if imgs.isEmpty then []
  else if imgs.length ≤ 2 ∨ ¬opts.enableBatch then
    imgs.map (recognize m opts charset)
  else
    ((chunksOf opts.batchSize imgs).map (recognizeBatchInternal m opts charset)).flatten

theorem chunksGo_flatten {α : Type} :
    ∀ (f n : Nat) (l : List α), l.length ≤ f → 0 < n →
      (chunksGo f n l).flatten = l
  | _, _, [], _, _ => by rw [chunksGo]; rfl
  | 0, _, a :: t, hf, _ => by simp at hf
  | f + 1, n, a :: t, hf, hn => by
    rw [chunksGo, if_neg (by omega)]
    rw [List.flatten_cons]
    rw [chunksGo_flatten f n ((a :: t).drop n)
      (by simp only [List.length_drop, List.length_cons] at *; omega) hn]
    exact List.take_append_drop n (a :: t)

/-- C1: provided the batched engine run decodes row-for-row like the single
runs (the §6 requirement on the inference collaborator — padding must not
change the decoded rows), `recognize_batch` returns exactly one result per
input image, in input order, each equal to `recognize` on that image alone —
the chunked batch path (chunks of `batch_size`, one inference per chunk,
rows decoded independently) agrees with the sequential path. -/
theorem recognize_batch_eq_sequential {Img : Type} (m : RecEngine Img)
    (opts : RecOptions) (charset : List Char) (imgs : List Img)
    (hbs : 0 < opts.batchSize)
    (hbatch : ∀ l : List Img,
      (m.runBatch l).map (decodeOutput charset opts.minScore opts.punctMinScore) =
        l.map (recognize m opts charset)) :
    recognizeBatch m opts charset imgs = imgs.map (recognize m opts charset) := by
  unfold recognizeBatch
  by_cases he : imgs.isEmpty
  · rw [if_pos he, List.isEmpty_iff.mp he]
    rfl
  · rw [if_neg he]
    by_cases hseq : imgs.length ≤ 2 ∨ ¬opts.enableBatch
    · rw [if_pos hseq]
    · rw [if_neg hseq]
      have hint : ∀ c : List Img,
          recognizeBatchInternal m opts charset c = c.map (recognize m opts charset) := by
        intro c
        match c with
        | [] => rfl
        | [img] => rfl
        | a :: b :: t =>
          rw [show recognizeBatchInternal m opts charset (a :: b :: t) =
            (m.runBatch (a :: b :: t)).map
              (decodeOutput charset opts.minScore opts.punctMinScore) from rfl]
          exact hbatch (a :: b :: t)
      rw [List.map_congr_left (fun c _ => hint c)]
      rw [← List.map_flatten]
      rw [show (chunksOf opts.batchSize imgs).flatten = imgs from
        chunksGo_flatten imgs.length opts.batchSize imgs (Nat.le_refl _) hbs]

/-- `OcrResult` of the engine (engine.rs: text, confidence, bounding box). -/
structure OcrItem where
  text : String
  confidence : Rat
  bbox : TextBox
deriving DecidableEq

/-- The collaborators `OcrEngine::recognize` composes (engine.rs, lines
392-433): the optional orientation correction (identity when no orientation
model is configured), `det_model.detect_and_crop`, the two recognition
strategies, the parallel toggle, and the result-confidence floor. Fallible
calls return `Option` (`none` = the error case of `OcrResult`). -/
structure EngineModel (Img : Type) where
  correctOrientation : Img → Img
  detectAndCrop : Img → Option (List (Img × TextBox))
  recognizeSingle : Img → Option RecognitionResult
  recognizeBatchFn : List Img → Option (List RecognitionResult)
  enableParallel : Bool
  minResultConfidence : Rat

/-- Step 2 of `OcrEngine::recognize` (engine.rs, lines 410-420): parallel
fan-out of per-image recognition when enabled and more than 4 regions
(rayon's collect preserves input order), else the batched sequential path. -/
def engineRecMany {Img : Type} (m : EngineModel Img) (imgs : List Img) :
    Option (List RecognitionResult) :=
  if m.enableParallel ∧ imgs.length > 4 then imgs.mapM m.recognizeSingle
  else m.recognizeBatchFn imgs

/-- `OcrEngine::recognize` (engine.rs, lines 392-433): orientation-correct,
detect-and-crop (empty detection short-circuits to an empty success),
recognize all crops, then keep exactly the results with non-empty text and
confidence at least `min_result_confidence`, in detection order. -/
def engineRecognize {Img : Type} (m : EngineModel Img) (image : Img) :
    Option (List OcrItem) :=
  match m.detectAndCrop (m.correctOrientation image) with
  | none => none
  | some detections =>
    if detections.isEmpty then some []
    else
      match engineRecMany m (detections.map Prod.fst) with
      | none => none
      | some recResults =>
        some (((recResults.zip (detections.map Prod.snd)).filter (fun rb =>
            !(rb.1.text == "") && decide (m.minResultConfidence ≤ rb.1.confidence))).map
          (fun rb => { text := rb.1.text, confidence := rb.1.confidence, bbox := rb.2 }))

/-- C8: if detection yields no regions, `OcrEngine::recognize` returns a
successful empty result (not an error); otherwise — whenever the recognition
step succeeds — the returned list is exactly the recognized regions whose
text is non-empty and whose aggregate confidence is at least
`min_result_confidence`, paired with their boxes in detection order. -/
theorem engine_recognize_filter {Img : Type} (m : EngineModel Img) (image : Img) :
    (m.detectAndCrop (m.correctOrientation image) = some [] →
      engineRecognize m image = some []) ∧
    (∀ (dets : List (Img × TextBox)) (recs : List RecognitionResult),
      m.detectAndCrop (m.correctOrientation image) = some dets →
      dets ≠ [] →
      engineRecMany m (dets.map Prod.fst) = some recs →
      engineRecognize m image =
        some (((recs.zip (dets.map Prod.snd)).filter (fun rb =>
            rb.1.text ≠ "" ∧ m.minResultConfidence ≤ rb.1.confidence)).map
          (fun rb => { text := rb.1.text, confidence := rb.1.confidence, bbox := rb.2 }))) := by
  constructor
  · intro hdet
    unfold engineRecognize
    rw [hdet]
    rfl
  · intro dets recs hdet hne hrec
    simp only [engineRecognize, hdet]
    rw [if_neg (fun h => hne (List.isEmpty_iff.mp h)), hrec]
    have hfe : (recs.zip (dets.map Prod.snd)).filter (fun rb =>
        !(rb.1.text == "") && decide (m.minResultConfidence ≤ rb.1.confidence)) =
        (recs.zip (dets.map Prod.snd)).filter (fun rb =>
          decide (rb.1.text ≠ "" ∧ m.minResultConfidence ≤ rb.1.confidence)) := by
      apply List.filter_congr
      intro rb _
      rcases rb with ⟨r, b⟩
      by_cases ht : r.text = ""
      · simp [ht]
      · by_cases hc : m.minResultConfidence ≤ r.confidence
        · simp [ht, hc]
        · simp [ht, hc]
    exact congrArg (fun l => some (l.map
      (fun rb : RecognitionResult × TextBox =>
        { text := rb.1.text, confidence := rb.1.confidence, bbox := rb.2 : OcrItem }))) hfe

/-- A concrete recognition engine for exercising the batch path: every image
produces the same two-step output. -/
def wRecEngine : RecEngine Nat :=
  { runSingle := fun _ => [[(1 : Rat), 0, 0], [0, 0, 1]],
    runBatch := fun l => l.map (fun _ => [[(1 : Rat), 0, 0], [0, 0, 1]]) }

/-- Concrete recognition options: batching enabled, batch size 8. -/
def wRecOpts : RecOptions :=
  { targetHeight := 48, minScore := 0, punctMinScore := 0, batchSize := 8,
    enableBatch := true }

/-- Witness for C1: at four images (more than 2, so the chunked path runs)
the hypotheses hold and the batched results equal the sequential ones. -/
theorem recognize_batch_eq_sequential_witness :
    0 < wRecOpts.batchSize ∧
    (∀ l : List Nat,
      (wRecEngine.runBatch l).map
          (decodeOutput [' ', 'a', 'b'] wRecOpts.minScore wRecOpts.punctMinScore) =
        l.map (recognize wRecEngine wRecOpts [' ', 'a', 'b'])) ∧
    recognizeBatch wRecEngine wRecOpts [' ', 'a', 'b'] [0, 1, 2, 3] =
      [0, 1, 2, 3].map (recognize wRecEngine wRecOpts [' ', 'a', 'b']) := by
  refine ⟨by decide, ?_, ?_⟩
  · intro l
    rw [show wRecEngine.runBatch l =
      l.map (fun _ => [[(1 : Rat), 0, 0], [0, 0, 1]]) from rfl]
    rw [List.map_map]
    rfl
  · refine recognize_batch_eq_sequential wRecEngine wRecOpts [' ', 'a', 'b'] [0, 1, 2, 3]
      (by decide) ?_
    intro l
    rw [show wRecEngine.runBatch l =
      l.map (fun _ => [[(1 : Rat), 0, 0], [0, 0, 1]]) from rfl]
    rw [List.map_map]
    rfl

/-- Witness for C2: a four-step output over a three-character charset —
two contiguous repeats of class 1, then a blank, then class 1 again — with
the row-fit hypothesis discharged concretely. -/
theorem ctc_decode_spec_witness :
    (∀ row ∈ [[(0 : Rat), 2, 1], [0, 2, 1], [5, 2, 1], [0, 2, 1]],
      row.length ≤ ([' ', 'a', 'b'] : List Char).length) ∧
    ((decodeOutput [' ', 'a', 'b'] 0 0
        [[(0 : Rat), 2, 1], [0, 2, 1], [5, 2, 1], [0, 2, 1]]).charScores =
      ctcSpecEmitted [' ', 'a', 'b'] 0 0
        [[(0 : Rat), 2, 1], [0, 2, 1], [5, 2, 1], [0, 2, 1]] ∧
    (decodeOutput [' ', 'a', 'b'] 0 0
        [[(0 : Rat), 2, 1], [0, 2, 1], [5, 2, 1], [0, 2, 1]]).confidence =
      (if ctcSpecEmitted [' ', 'a', 'b'] 0 0
          [[(0 : Rat), 2, 1], [0, 2, 1], [5, 2, 1], [0, 2, 1]] = [] then 0
       else ((ctcSpecEmitted [' ', 'a', 'b'] 0 0
          [[(0 : Rat), 2, 1], [0, 2, 1], [5, 2, 1], [0, 2, 1]]).map Prod.snd).sum /
         ((ctcSpecEmitted [' ', 'a', 'b'] 0 0
          [[(0 : Rat), 2, 1], [0, 2, 1], [5, 2, 1], [0, 2, 1]]).length : Rat))) :=
  ⟨by decide,
   ctc_decode_spec [' ', 'a', 'b'] 0 0
     [[(0 : Rat), 2, 1], [0, 2, 1], [5, 2, 1], [0, 2, 1]] (by decide)⟩

/-- The 10×5 contour of the specification's unclip example. -/
def wUnclipContour : Contour :=
  { parent := none, points := [(0, 0), (10, 0), (10, 5), (0, 5)] }

/-- Witness for C3: the specification's example — a 10×5 clipped box with
`unclip_ratio = 1.5` gives expansion distance `max(1, 50·1.5/30) = 2.5` per
side — together with the guard hypotheses discharged concretely. -/
theorem unclip_expansion_spec_witness :
    getContourBounds wUnclipContour = (0, 0, 10, 5) ∧
    min (10 : Int) ((100 : Nat) : Int) - max (0 : Int) 0 = ((10 : Nat) : Int) ∧
    min (5 : Int) ((100 : Nat) : Int) - max (0 : Int) 0 = ((5 : Nat) : Int) ∧
    processContour 100 100 100 100 1 (3/2) wUnclipContour =
      unclipSpecBox 100 100 100 100 (max (0 : Int) 0) (max (0 : Int) 0)
        (min (10 : Int) ((100 : Nat) : Int)) (min (5 : Int) ((100 : Nat) : Int))
        (unclipDistance 10 5 (3/2)) ∧
    unclipDistance 10 5 (3/2) = 5/2 := by
  refine ⟨by decide, by decide, by decide, ?_, by norm_num [unclipDistance]⟩
  exact unclip_expansion_spec wUnclipContour 100 100 100 100 1 (3/2) 0 0 10 5 10 5
    (by decide) rfl (by decide) (by decide) (by decide) (by decide)
    (by decide) (by decide) (by decide) (by decide) (by decide)

/-- Witness for C6 (amended): the concrete contour's boxes, raw and expanded
with the in-range border 5, all verified in bounds via the theorem. -/
theorem detection_boxes_in_bounds_witness :
    ((5 : Nat) : Int) ≤ i32Lim - 1 ∧
    ((∀ b ∈ extractBoxesWithUnclip [cexContour] 100 100 100 100 1 (2/5),
        boxInBounds b 100 100) ∧
     (∀ b ∈ detectAndCropBoxes (extractBoxesWithUnclip [cexContour] 100 100 100 100 1 (2/5))
        5 100 100, boxInBounds b 100 100)) :=
  ⟨by decide, detection_boxes_in_bounds [cexContour] 100 100 100 100 1 5 (2/5) (by decide)⟩

/-- Concrete engine items for exercising the result filter. -/
def wBoxA : TextBox := TextBox.new { left := 0, top := 0, width := 5, height := 5 } 1

/-- Second concrete detection box. -/
def wBoxB : TextBox := TextBox.new { left := 10, top := 0, width := 5, height := 5 } 1

/-- Recognition result below the 0.6 confidence floor. -/
def wRecA : RecognitionResult := { text := "a", confidence := 11/20, charScores := [] }

/-- Recognition result above the 0.6 confidence floor. -/
def wRecB : RecognitionResult := { text := "b", confidence := 61/100, charScores := [] }

/-- A concrete engine: two detected regions, sequential recognition giving
confidences 0.55 and 0.61, floor 0.6. -/
def wEngineModel : EngineModel Nat :=
  { correctOrientation := id,
    detectAndCrop := fun _ => some [(1, wBoxA), (2, wBoxB)],
    recognizeSingle := fun _ => none,
    recognizeBatchFn := fun _ => some [wRecA, wRecB],
    enableParallel := false,
    minResultConfidence := 3/5 }

/-- Witness for C8: with floor 0.6 the 0.55-confidence region is dropped and
the 0.61-confidence region survives, in detection order. -/
theorem engine_recognize_filter_witness :
    wEngineModel.detectAndCrop (wEngineModel.correctOrientation 0) =
      some [(1, wBoxA), (2, wBoxB)] ∧
    ([(1, wBoxA), (2, wBoxB)] : List (Nat × TextBox)) ≠ [] ∧
    engineRecMany wEngineModel ([(1, wBoxA), (2, wBoxB)].map Prod.fst) =
      some [wRecA, wRecB] ∧
    engineRecognize wEngineModel 0 =
      some [{ text := "b", confidence := 61/100, bbox := wBoxB }] := by
  refine ⟨rfl, by simp, rfl, ?_⟩
  rw [(engine_recognize_filter wEngineModel 0).2 [(1, wBoxA), (2, wBoxB)] [wRecA, wRecB]
    rfl (by simp) rfl]
  norm_num [wRecA, wRecB, wEngineModel, List.filter_cons]
  simp

/-- Witness for C9: the one-character charset file `a` parses to
`[' ', 'a', ' ']`, and an argmax at the pad index 2 emits a space. -/
theorem parse_charset_blank_pad_witness :
    (∃ ch ∈ ['a'], ch ≠ '\n' ∧ ch ≠ '\r') ∧
    (∃ cs, parseCharset ['a'] = some cs ∧
      cs.length = (['a'].filter (fun ch => ch != '\n' && ch != '\r')).length + 2 ∧
      cs.getD 0 'x' = ' ' ∧
      cs.getD (cs.length - 1) 'x' = ' ' ∧
      (∀ (row : List Rat) (v minS punctS : Rat),
        argmaxPair row = (cs.length - 1, v) → minS ≤ v →
        (decodeOutput cs minS punctS [row]).charScores = [(' ', v)] ∧
        (decodeOutput cs minS punctS [row]).text = " " ∧
        (decodeOutput cs minS punctS [row]).confidence = v)) :=
  ⟨by decide, parse_charset_blank_pad ['a'] (by decide)⟩

end OcrRs
